import Mathlib

/-!
# Verification of the LaMDA-pytorch core

Shallow embedding of the two algorithmic source files of the repository:

* `dataloader/stream_dataloader.py` — the sequence-packing function `tokenize`
  mapped in batched mode over a streaming dataset, and
* `lamda_pytorch/lamda_pytorch.py` — the transformer forward computation
  (T5 relative position bucketing, multi-query causal attention, gated
  feedforward, residual/pre-norm stack, language-model head).

Machine integers of the Python source are modelled as `ℤ`/`ℕ`; tensors of
rationals as nested lists; the source's irrational scalar constants and
transcendental pointwise functions (`x ** -0.5`, `exp`, `gelu`, `1/sqrt`)
are carried as explicit parameters, applied exactly where the source
applies them.  Python exceptions are modelled as `Option.none`.
-/

namespace LaMDAPytorch

/-! ## Sequence packing (`stream_dataloader.py`, `tokenize`, lines 46-61) -/

/-- Python `range(0, stop, step)` as a list of integers, for `step ≠ 0`
(CPython computes the length as `ceil((stop - start) / step)` clamped at 0;
for `step = 0` Python raises, handled by the caller).  Elements are
`0, step, 2*step, ...`. -/
def pyRange0 (stop step : ℤ) : List ℤ :=
  if 0 < step then
    (List.range ((stop + step - 1) / step).toNat).map (fun i => ((i : ℕ) : ℤ) * step)
  else if step < 0 then
    (List.range (((-stop) + (-step) - 1) / (-step)).toNat).map (fun i => ((i : ℕ) : ℤ) * step)
  else []

/-- Python list slice `t[i : i + L]` for `0 ≤ i` and `0 < L` (the only case
reached in `tokenize`: slice starts come from a `range` with positive step). -/
def pySlice (t : List ℤ) (i L : ℤ) : List ℤ :=
  (t.drop i.toNat).take L.toNat

/-- The dictionary produced by one call of `tokenize` on a batch: the three
columns `input_ids`, `attention_mask`, `labels`, each a list of emitted
blocks. -/
structure TokenizeResult where
  input_ids : List (List ℤ)
  attention_mask : List (List ℤ)
  labels : List (List ℤ)
deriving DecidableEq, Repr

/-- Embeds `tokenize` (stream_dataloader.py lines 46-61).  A batch is a list
of tokenized examples, each a pair (input_ids, attention_mask) as returned by
the tokenizer.  Following the source:
`concatenated_examples` chains each column; `total_length` is the length of
the first column (`input_ids`); if `total_length >= seq_length` it is rounded
down to a multiple of `seq_length` (Python `//` is floor division, `Int.fdiv`);
each column is then cut at `range(0, total_length, seq_length)` into slices
`t[i : i + seq_length]`; `labels` is a `copy.deepcopy` of the `input_ids`
column, hence the same list value.  With `L = 0` the source raises
`ZeroDivisionError` at `total_length // seq_length` (the guard
`total_length >= 0` always holds), modelled as `none`. -/
def tokenizeStarts (L total : ℤ) : List ℤ :=
  pyRange0 (if L ≤ total then total.fdiv L * L else total) L

def tokenize (L : ℤ) (batch : List (List ℤ × List ℤ)) : Option TokenizeResult :=
  if L = 0 then none
  else
    let ids := (batch.map Prod.fst).flatten
    let mask := (batch.map Prod.snd).flatten
    let starts := tokenizeStarts L ids.length
    let bIds := starts.map (fun i => pySlice ids i L)
    let bMask := starts.map (fun i => pySlice mask i L)
    some ⟨bIds, bMask, bIds⟩

/-- Source: `tokenize` with a nonzero target length, unfolded. -/
lemma tokenize_eq (L : ℤ) (hL : L ≠ 0) (batch : List (List ℤ × List ℤ)) :
    tokenize L batch =
      some ⟨(tokenizeStarts L (batch.map Prod.fst).flatten.length).map
              (fun i => pySlice (batch.map Prod.fst).flatten i L),
            (tokenizeStarts L (batch.map Prod.fst).flatten.length).map
              (fun i => pySlice (batch.map Prod.snd).flatten i L),
            (tokenizeStarts L (batch.map Prod.fst).flatten.length).map
              (fun i => pySlice (batch.map Prod.fst).flatten i L)⟩ := by
  unfold tokenize
  rw [if_neg hL]

/-- Concatenating the `range q`-indexed slices of width `Ln` of a list
reproduces its first `q * Ln` elements. -/
lemma flatten_slices (l : List ℤ) (Ln : ℕ) :
    ∀ q : ℕ, ((List.range q).map (fun k => (l.drop (k * Ln)).take Ln)).flatten = l.take (q * Ln) := by
  intro q
  induction q with
  | zero => simp
  | succ n ih =>
    rw [List.range_succ, List.map_append, List.flatten_append, ih]
    simp [Nat.succ_mul, List.take_add]

lemma nat_count_mul (q Ln : ℕ) (h : 1 ≤ Ln) : (q * Ln + Ln - 1) / Ln = q := by
  have h2 : q * Ln + Ln - 1 = (Ln - 1) + q * Ln := by omega
  rw [h2, Nat.add_mul_div_right _ _ (by omega : 0 < Ln), Nat.div_eq_of_lt (by omega)]
  omega

lemma nat_count_small (t Ln : ℕ) (h1 : 1 ≤ t) (h2 : t ≤ Ln) : (t + Ln - 1) / Ln = 1 := by
  have h3 : t + Ln - 1 = (t - 1) + 1 * Ln := by omega
  rw [h3, Nat.add_mul_div_right _ _ (by omega : 0 < Ln), Nat.div_eq_of_lt (by omega)]

lemma pyRange0_neg_nil (stop step : ℤ) (hstop : 0 ≤ stop) (hstep : step < 0) :
    pyRange0 stop step = [] := by
  unfold pyRange0
  rw [if_neg (by omega), if_pos hstep]
  suffices h : ((-stop + -step - 1) / (-step)).toNat = 0 by rw [h]; simp
  rcases le_or_lt 0 (-stop + -step - 1) with h1 | h1
  · rw [Int.ediv_eq_zero_of_lt h1 (by omega)]; rfl
  · rw [Int.toNat_eq_zero]
    exact le_of_lt (Int.ediv_neg' h1 (by omega))

/-- In the at-least-`L`-tokens regime, the slice starts are
`0, Ln, ..., (t / Ln - 1) * Ln`. -/
lemma tokenizeStarts_ge (Ln t : ℕ) (h : 1 ≤ Ln) (h2 : Ln ≤ t) :
    tokenizeStarts (Ln : ℤ) (t : ℤ) =
      (List.range (t / Ln)).map (fun i => ((i : ℕ) : ℤ) * (Ln : ℤ)) := by
  set q := t / Ln with hq
  unfold tokenizeStarts
  rw [if_pos (by exact_mod_cast h2)]
  have hfd : ((t : ℤ)).fdiv (Ln : ℤ) * (Ln : ℤ) = ((q * Ln : ℕ) : ℤ) := by
    rw [Int.fdiv_eq_ediv _ (by positivity), ← Int.ofNat_ediv, ← hq]
    exact_mod_cast rfl
  rw [hfd]
  unfold pyRange0
  rw [if_pos (by exact_mod_cast h)]
  congr 1
  have h1 : ((q * Ln : ℕ) : ℤ) + (Ln : ℤ) - 1 = ((q * Ln + Ln - 1 : ℕ) : ℤ) := by
    omega
  rw [h1, ← Int.ofNat_ediv, Int.toNat_natCast, nat_count_mul q Ln h]

/-- In the shorter-than-`L`, nonempty regime there is exactly one slice
start, `0`: the whole short batch gets emitted as one block. -/
lemma tokenizeStarts_lt (Ln t : ℕ) (h1 : 1 ≤ t) (h2 : t < Ln) :
    tokenizeStarts (Ln : ℤ) (t : ℤ) = [0] := by
  unfold tokenizeStarts
  rw [if_neg (by exact_mod_cast Nat.not_le.mpr h2)]
  unfold pyRange0
  rw [if_pos (by exact_mod_cast Nat.lt_of_lt_of_le h1 (Nat.le_of_lt h2) : (0 : ℤ) < Ln)]
  have hc : ((t : ℤ) + (Ln : ℤ) - 1) = ((t + Ln - 1 : ℕ) : ℤ) := by omega
  rw [hc, ← Int.ofNat_ediv, Int.toNat_natCast, nat_count_small t Ln h1 (Nat.le_of_lt h2)]
  show (List.range 1).map (fun i => ((i : ℕ) : ℤ) * (Ln : ℤ)) = [0]
  norm_num [List.range_succ]

lemma tokenizeStarts_empty (Ln : ℕ) (h : 1 ≤ Ln) :
    tokenizeStarts (Ln : ℤ) ((0 : ℕ) : ℤ) = [] := by
  unfold tokenizeStarts
  rw [if_neg (by exact_mod_cast Nat.not_le.mpr h)]
  unfold pyRange0
  rw [if_pos (by exact_mod_cast h)]
  have hc : (((0 : ℕ) : ℤ) + (Ln : ℤ) - 1) / (Ln : ℤ) = 0 := by
    apply Int.ediv_eq_zero_of_lt <;> omega
  rw [hc]
  simp

/-- With a negative target length every batch yields an empty list of slice
starts: `range(0, total2, L)` with `L < 0` and `total2 ≥ 0` is empty. -/
lemma tokenizeStarts_neg (L total : ℤ) (hL : L < 0) (htot : 0 ≤ total) :
    tokenizeStarts L total = [] := by
  unfold tokenizeStarts
  rw [if_pos (by omega)]
  have hfd : total.fdiv L ≤ 0 := Int.fdiv_nonpos htot (le_of_lt hL)
  have htot2 : 0 ≤ total.fdiv L * L := by
    have h1 := mul_nonneg (neg_nonneg.mpr hfd) (neg_nonneg.mpr (le_of_lt hL))
    rwa [neg_mul_neg] at h1
  exact pyRange0_neg_nil _ _ htot2 hL

/-- C2 (amended): for every positive target length `L` and every batch, the
call succeeds, and when the batch holds at least `L` tokens the concatenation
of the emitted blocks' token ids is exactly the concatenated input truncated
to the largest multiple of `L` (so fewer than `L` tokens of that batch are
dropped — per call, not across the stream); but when the batch holds fewer
than `L` tokens (and at least one), the entire short batch is emitted as one
single block rather than retained for a later call. -/
theorem tokenize_packs_exactly (L : ℤ) (hL : 0 < L) (batch : List (List ℤ × List ℤ)) :
    ∃ r, tokenize L batch = some r ∧
      (L ≤ ((batch.map Prod.fst).flatten.length : ℤ) →
        r.input_ids.flatten =
          (batch.map Prod.fst).flatten.take
            ((batch.map Prod.fst).flatten.length / L.toNat * L.toNat) ∧
        (batch.map Prod.fst).flatten.length -
            (batch.map Prod.fst).flatten.length / L.toNat * L.toNat < L.toNat) ∧
      (((batch.map Prod.fst).flatten.length : ℤ) < L →
        r.input_ids =
          if (batch.map Prod.fst).flatten.length = 0 then []
          else [(batch.map Prod.fst).flatten]) := by
  set ids := (batch.map Prod.fst).flatten with hids
  set Ln := L.toNat with hLn
  have hLn1 : 1 ≤ Ln := by omega
  have hLcast : L = (Ln : ℤ) := by omega
  refine ⟨_, tokenize_eq L (by omega) batch, ?_, ?_⟩
  · intro hT
    have hT2 : Ln ≤ ids.length := by omega
    constructor
    · show ((tokenizeStarts L (ids.length : ℤ)).map (fun i => pySlice ids i L)).flatten = _
      rw [hLcast, tokenizeStarts_ge Ln ids.length hLn1 hT2, List.map_map]
      have hsl : ((fun i => pySlice ids i ((Ln : ℕ) : ℤ)) ∘ fun i : ℕ => ((i : ℕ) : ℤ) * (Ln : ℤ)) =
          fun k : ℕ => (ids.drop (k * Ln)).take Ln := by
        funext k
        show pySlice ids (((k : ℕ) : ℤ) * (Ln : ℤ)) ((Ln : ℕ) : ℤ) = _
        unfold pySlice
        rw [show (((k : ℕ) : ℤ) * (Ln : ℤ)) = ((k * Ln : ℕ) : ℤ) by push_cast; ring,
          Int.toNat_natCast, Int.toNat_natCast]
      rw [hsl, flatten_slices]
    · have hdm : Ln * (ids.length / Ln) + ids.length % Ln = ids.length :=
        Nat.div_add_mod ids.length Ln
      have hdm2 : ids.length / Ln * Ln = Ln * (ids.length / Ln) := Nat.mul_comm _ _
      have hmod : ids.length % Ln < Ln := Nat.mod_lt _ (by omega)
      omega
  · intro hT
    have hT2 : ids.length < Ln := by omega
    show (tokenizeStarts L (ids.length : ℤ)).map (fun i => pySlice ids i L) = _
    rcases Nat.eq_zero_or_pos ids.length with h0 | h0
    · rw [if_pos h0, hLcast, h0, tokenizeStarts_empty Ln hLn1]
      rfl
    · rw [if_neg (by omega), hLcast, tokenizeStarts_lt Ln ids.length h0 hT2]
      show [pySlice ids 0 ((Ln : ℕ) : ℤ)] = [ids]
      unfold pySlice
      rw [Int.toNat_zero, List.drop_zero, Int.toNat_natCast,
        List.take_of_length_le (by omega)]

/-- Witness for `tokenize_packs_exactly` at `L = 2` on a 5-token batch. -/
theorem tokenize_packs_exactly_witness :
    (0 : ℤ) < 2 ∧
      ∃ r, tokenize 2 [([1, 2, 3], [1, 1, 1]), ([4, 5], [1, 1])] = some r ∧
        ((2 : ℤ) ≤ (([([1, 2, 3], [1, 1, 1]), ([4, 5], [1, 1])].map Prod.fst).flatten.length : ℤ) →
          r.input_ids.flatten =
            ([([1, 2, 3], [1, 1, 1]), ([4, 5], [1, 1])].map Prod.fst).flatten.take
              (([([1, 2, 3], [1, 1, 1]), ([4, 5], [1, 1])].map Prod.fst).flatten.length / (2 : ℤ).toNat * (2 : ℤ).toNat) ∧
          ([([1, 2, 3], [1, 1, 1]), ([4, 5], [1, 1])].map Prod.fst).flatten.length -
              ([([1, 2, 3], [1, 1, 1]), ([4, 5], [1, 1])].map Prod.fst).flatten.length / (2 : ℤ).toNat * (2 : ℤ).toNat < (2 : ℤ).toNat) ∧
        ((([([1, 2, 3], [1, 1, 1]), ([4, 5], [1, 1])].map Prod.fst).flatten.length : ℤ) < 2 →
          r.input_ids =
            if ([([1, 2, 3], [1, 1, 1]), ([4, 5], [1, 1])].map Prod.fst).flatten.length = 0 then []
            else [([([1, 2, 3], [1, 1, 1]), ([4, 5], [1, 1])].map Prod.fst).flatten]) :=
  ⟨by decide, tokenize_packs_exactly 2 (by decide) [([1, 2, 3], [1, 1, 1]), ([4, 5], [1, 1])]⟩

/-- C2 (counterexample): with `L = 3` and one tokenized example `[7, 8]`
(2 tokens in total), the code emits the whole 2-token batch as a block, so
the concatenation of emitted token ids is `[7, 8]`, while the input stream
truncated to the largest multiple of `L` is `take (2 / 3 * 3) = take 0 = []`;
`[7, 8]` is not a prefix of `[]`, refuting the claimed prefix property (and
the tokens are emitted rather than retained). -/
theorem tokenize_remainder_emitted_cex :
    (tokenize 3 [([7, 8], [1, 1])]).map (fun r => r.input_ids.flatten) = some [7, 8] ∧
      List.take (2 / 3 * 3) [(7 : ℤ), 8] = [] ∧
      ¬ [(7 : ℤ), 8] <+: List.take (2 / 3 * 3) [(7 : ℤ), 8] := by
  refine ⟨by decide, by decide, ?_⟩
  rintro ⟨t, ht⟩
  simp at ht

/-- C1: with `L = 2` and a batch whose single tokenized example is `[5]`
(1 token, fewer than `L`), `tokenize` emits one block of length 1: the
guard `total_length >= seq_length` fails, so `total_length` is never rounded
down to a multiple of `L`, yet `range(0, 1, 2)` still yields the start `0`
and the slice `t[0:2] = [5]` is emitted.  This contradicts the file's own
comment that inputs are split into sequences of exactly `seq_length` tokens
with short sequences dropped. -/
theorem tokenize_emits_short_block :
    (tokenize 2 [([5], [1])]).map (fun r => r.input_ids.map List.length) = some [1] ∧
      (1 : ℕ) ≠ 2 := by
  exact ⟨by decide, by decide⟩

/-- C6 (counterexample): a pipeline configured with the non-positive
sequence length `-1` is not rejected: the packing function runs over a
nonempty batch and silently returns successfully (emitting no blocks),
so data flows and no construction-time (nor processing-time) error occurs. -/
theorem tokenize_negative_len_not_rejected :
    tokenize (-1) [([1, 2, 3], [1, 1, 1])] = some ⟨[], [], []⟩ := by decide

/-- C6 (amended): no configuration validation exists.  A negative
`seq_length` makes `tokenize` silently succeed with zero blocks on every
batch, and `seq_length = 0` fails only when a batch is actually processed
(`ZeroDivisionError` inside `tokenize`, modelled as `none`) — never at
construction time. -/
theorem tokenize_nonpositive_len (L : ℤ) (hL : L ≤ 0) (batch : List (List ℤ × List ℤ)) :
    tokenize L batch = if L = 0 then none else some ⟨[], [], []⟩ := by
  rcases eq_or_lt_of_le hL with h0 | hneg
  · subst h0; simp [tokenize]
  · rw [if_neg (by omega), tokenize_eq L (by omega) batch,
      tokenizeStarts_neg L _ hneg (by positivity)]
    rfl

/-- Witness for `tokenize_nonpositive_len` at `L = -2`. -/
theorem tokenize_nonpositive_len_witness :
    (-2 : ℤ) ≤ 0 ∧
      tokenize (-2) [([1, 2, 3], [1, 1, 1])] =
        if (-2 : ℤ) = 0 then none else some ⟨[], [], []⟩ :=
  ⟨by decide, tokenize_nonpositive_len (-2) (by decide) [([1, 2, 3], [1, 1, 1])]⟩

/-! ## Deep copy of the labels column (`stream_dataloader.py`, line 59) -/

/-- Heap model for `result["labels"] = copy.deepcopy(result["input_ids"])`:
a heap is a list of block cells indexed by address; `copy.deepcopy` of a list
of block addresses appends one fresh copy of each pointed-to block to the end
of the heap and returns the fresh addresses (CPython's deepcopy allocates new
objects and never aliases the originals). -/
def deepcopyAt (heap : List (List ℤ)) (addrs : List ℕ) : List (List ℤ) × List ℕ :=
  (heap ++ addrs.map (fun a => heap.getD a []), List.range' heap.length addrs.length)

lemma deepcopyAt_fresh_bounds (heap : List (List ℤ)) (addrs : List ℕ) (f : ℕ)
    (hf : f ∈ (deepcopyAt heap addrs).2) :
    heap.length ≤ f ∧ f < heap.length + addrs.length := by
  unfold deepcopyAt at hf
  exact List.mem_range'_1.mp hf

lemma deepcopyAt_read (heap : List (List ℤ)) (addrs : List ℕ) :
    ((deepcopyAt heap addrs).2).map (fun f => ((deepcopyAt heap addrs).1).getD f []) =
      addrs.map (fun a => heap.getD a []) := by
  apply List.ext_getElem
  · simp [deepcopyAt]
  · intro i h1 h2
    have hi : i < addrs.length := by simpa [deepcopyAt] using h2
    have hi2 : i < (deepcopyAt heap addrs).2.length := by simpa [deepcopyAt] using hi
    rw [List.getElem_map, List.getElem_map]
    have hr : (deepcopyAt heap addrs).2[i] = heap.length + i := by
      simp [deepcopyAt, List.getElem_range'_1]
    rw [hr]
    unfold deepcopyAt
    rw [List.getD_eq_getElem?_getD, List.getElem?_append_right (by omega)]
    simp [hi]

/-- C7: the `labels` column of every `tokenize` result equals the
`input_ids` column element for element at emission time, and the deep copy
creating it allocates only fresh cells: the copied cells hold the same
block values, their addresses are disjoint from the originals, and writing
through an original address never changes a copy (nor the converse). -/
theorem labels_deepcopy_independent :
    (∀ (L : ℤ) (batch : List (List ℤ × List ℤ)) (r : TokenizeResult),
        tokenize L batch = some r → r.labels = r.input_ids) ∧
    (∀ (heap : List (List ℤ)) (addrs : List ℕ), (∀ a ∈ addrs, a < heap.length) →
      ((deepcopyAt heap addrs).2).map (fun f => ((deepcopyAt heap addrs).1).getD f []) =
          addrs.map (fun a => heap.getD a []) ∧
        (∀ a ∈ addrs, ∀ f ∈ (deepcopyAt heap addrs).2, a ≠ f) ∧
        (∀ a ∈ addrs, ∀ f ∈ (deepcopyAt heap addrs).2, ∀ v : List ℤ,
          (((deepcopyAt heap addrs).1).set a v).getD f [] =
            ((deepcopyAt heap addrs).1).getD f []) ∧
        (∀ f ∈ (deepcopyAt heap addrs).2, ∀ a ∈ addrs, ∀ v : List ℤ,
          (((deepcopyAt heap addrs).1).set f v).getD a [] =
            ((deepcopyAt heap addrs).1).getD a [])) := by
  constructor
  · intro L batch r h
    by_cases hL : L = 0
    · subst hL; simp [tokenize] at h
    · rw [tokenize_eq L hL] at h
      cases h
      rfl
  · intro heap addrs hwf
    refine ⟨deepcopyAt_read heap addrs, ?_, ?_, ?_⟩
    · intro a ha f hf
      have h1 := hwf a ha
      have h2 := (deepcopyAt_fresh_bounds heap addrs f hf).1
      omega
    · intro a ha f hf v
      have h1 := hwf a ha
      have h2 := (deepcopyAt_fresh_bounds heap addrs f hf).1
      rw [List.getD_eq_getElem?_getD, List.getD_eq_getElem?_getD,
        List.getElem?_set_ne (by omega : a ≠ f)]
    · intro f hf a ha v
      have h1 := hwf a ha
      have h2 := (deepcopyAt_fresh_bounds heap addrs f hf).1
      rw [List.getD_eq_getElem?_getD, List.getD_eq_getElem?_getD,
        List.getElem?_set_ne (by omega : f ≠ a)]

/-- Witness for `labels_deepcopy_independent`: the `tokenize` part on a
concrete call, and the heap part on a two-cell heap with one block address. -/
theorem labels_deepcopy_independent_witness :
    TokenizeResult.labels ⟨[[1, 2]], [[1, 1]], [[1, 2]]⟩ =
        TokenizeResult.input_ids ⟨[[1, 2]], [[1, 1]], [[1, 2]]⟩ ∧
      ((deepcopyAt [[9, 9], [3]] [1]).2).map
          (fun f => ((deepcopyAt [[9, 9], [3]] [1]).1).getD f []) =
        [1].map (fun a => [[9, 9], [3]].getD a ([] : List ℤ)) :=
  ⟨labels_deepcopy_independent.1 2 [([1, 2], [1, 1])] ⟨[[1, 2]], [[1, 1]], [[1, 2]]⟩ (by decide),
   ((labels_deepcopy_independent.2 [[9, 9], [3]] [1]) (by decide)).1⟩

/-! ## T5 relative position bucketing
(`lamda_pytorch.py`, `T5RelativePositionBias._relative_position_bucket`,
lines 73-87) -/

/-- The logarithmic-regime offset of `_relative_position_bucket`:
`(log(n / max_exact) / log(max_distance / max_exact) * (num_buckets - max_exact)).long()`
with `max_exact = num_buckets // 2`.  The `torch.log` / division / `.long()`
chain of the source is modelled in exact real arithmetic: for
`max_distance > max_exact ≥ 1` and `n ≥ max_exact` its value is
`floor((num_buckets - max_exact) * log(n/E) / log(M/E))`, which is the
greatest `k` with `(M/E)^k ≤ (n/E)^(num_buckets - max_exact)`, i.e. (clearing
denominators) the greatest `k ≤ n^p` with `M^k * E^p ≤ n^p * E^k` where
`p = num_buckets - max_exact` (`.long()` truncation coincides with the floor
because the value is nonnegative on this branch). -/
def logBucket (num_buckets max_distance n : ℕ) : ℕ :=
  Nat.findGreatest
    (fun k => max_distance ^ k * (num_buckets / 2) ^ (num_buckets - num_buckets / 2) ≤
      n ^ (num_buckets - num_buckets / 2) * (num_buckets / 2) ^ k)
    (n ^ (num_buckets - num_buckets / 2))

/-- Source: `val_if_large` of the source: `max_exact + logBucket`, clamped at
`num_buckets - 1` by `torch.min`. -/
def val_if_large (num_buckets max_distance n : ℕ) : ℕ :=
  min (num_buckets / 2 + logBucket num_buckets max_distance n) (num_buckets - 1)

/-- Embeds `_relative_position_bucket` on one scalar relative position:
`n = max(-relative_position, 0)`; if `n < max_exact` (`is_small`) the bucket
is `n` itself, otherwise `val_if_large`. -/
def relative_position_bucket (num_buckets max_distance : ℕ) (relative_position : ℤ) : ℕ :=
  if (max (-relative_position) 0).toNat < num_buckets / 2 then
    (max (-relative_position) 0).toNat
  else val_if_large num_buckets max_distance (max (-relative_position) 0).toNat

lemma logBucket_mono (nb md : ℕ) {n n' : ℕ} (h : n ≤ n') :
    logBucket nb md n ≤ logBucket nb md n' := by
  unfold logBucket
  apply Nat.findGreatest_mono
  · intro k hk
    exact le_trans hk (Nat.mul_le_mul_right _ (Nat.pow_le_pow_left h _))
  · exact Nat.pow_le_pow_left h _

/-- The bucket on the clamped magnitude `n`, as a function `ℕ → ℕ`, is
monotone. -/
lemma bucket_of_n_mono (nb md : ℕ) {n n' : ℕ} (h : n ≤ n') :
    (if n < nb / 2 then n else val_if_large nb md n) ≤
      (if n' < nb / 2 then n' else val_if_large nb md n') := by
  by_cases h2 : n' < nb / 2
  · rw [if_pos (by omega), if_pos h2]; exact h
  · rw [if_neg h2]
    by_cases h1 : n < nb / 2
    · rw [if_pos h1]
      have hmin : nb / 2 ≤ nb / 2 + logBucket nb md n' := Nat.le_add_right _ _
      have hnb : 0 < nb := by omega
      exact le_min (by omega) (by omega)
    · rw [if_neg h1]
      exact min_le_min (Nat.add_le_add_left (logBucket_mono nb md h) _) le_rfl

/-- C5: the relative-position bucket always lies in `[0, num_buckets)`
(for any positive bucket count), is monotonically non-decreasing as the
negated clamped distance increases (i.e. antitone in the raw relative
position), and on the spec's concrete configuration `num_buckets = 4`,
`max_distance = 8` the distances `0, 1, 2, 4, 8` (relative positions
`0, -1, -2, -4, -8`) map to the non-decreasing buckets `0, 1, 2, 3, 3`,
all within `[0, 4)`, with distance `0` mapping to bucket `0`. -/
theorem relative_position_bucket_props :
    (∀ nb md : ℕ, 1 ≤ nb → ∀ r : ℤ, relative_position_bucket nb md r < nb) ∧
    (∀ (nb md : ℕ) (r r' : ℤ), r' ≤ r →
      relative_position_bucket nb md r ≤ relative_position_bucket nb md r') ∧
    ([(0 : ℤ), -1, -2, -4, -8].map (relative_position_bucket 4 8) = [0, 1, 2, 3, 3] ∧
      List.Chain' (· ≤ ·) ([(0 : ℤ), -1, -2, -4, -8].map (relative_position_bucket 4 8)) ∧
      ∀ b ∈ [(0 : ℤ), -1, -2, -4, -8].map (relative_position_bucket 4 8), b < 4) := by
  refine ⟨?_, ?_, by decide, ?_, by decide⟩
  · intro nb md hnb r
    unfold relative_position_bucket
    by_cases h : (max (-r) 0).toNat < nb / 2
    · rw [if_pos h]
      have := Nat.div_le_self nb 2
      omega
    · rw [if_neg h]
      unfold val_if_large
      have := min_le_right (nb / 2 + logBucket nb md (max (-r) 0).toNat) (nb - 1)
      omega
  · intro nb md r r' hle
    unfold relative_position_bucket val_if_large
    have hmax : (max (-r) 0).toNat ≤ (max (-r') 0).toNat := by omega
    have := bucket_of_n_mono nb md hmax
    unfold val_if_large at this
    exact this
  · rw [show ([(0 : ℤ), -1, -2, -4, -8].map (relative_position_bucket 4 8)) = [0, 1, 2, 3, 3] from
      by decide]
    simp [List.chain'_cons, List.chain'_singleton]

/-- Witness for `relative_position_bucket_props` at the concrete
configuration. -/
theorem relative_position_bucket_props_witness :
    relative_position_bucket 4 8 (-8) < 4 ∧
      relative_position_bucket 4 8 (-4) ≤ relative_position_bucket 4 8 (-8) :=
  ⟨relative_position_bucket_props.1 4 8 (by decide) (-8),
   relative_position_bucket_props.2.1 4 8 (-4) (-8) (by decide)⟩

/-! ## Model embedding (`lamda_pytorch.py`)

Tensors are nested lists of rationals.  The source's irrational scalar
constants (`dim_head ** -0.5` for the attention scale, `dim_head ** 0.5`
for the relative-position-bias scale) are taken as the parameters `scale`
and `relScale` of the forward functions, and its transcendental pointwise
functions as a `ScalarOps` record; every theorem below holds for all
choices of these parameters.  Dropout layers are exact identities: the
`Transformer` constructor leaves the default `dropout = 0.`. -/

/-- Pointwise scalar functions of the source with no exact rational
representation: `torch.exp` (softmax), `F.gelu` (GEGLU), and
`x ↦ 1/sqrt(x)` applied to `var + eps` inside `nn.LayerNorm`. -/
structure ScalarOps where
  exp : ℚ → ℚ
  gelu : ℚ → ℚ
  rsqrt : ℚ → ℚ

/-- Source: `-torch.finfo(float32).max`, the sentinel of `masked_fill`:
`-(2 - 2^-23) * 2^127 = -(2^128 - 2^104)`, exactly representable. -/
def negMax : ℚ := -(2 ^ 128 - 2 ^ 104)

def dot (a b : List ℚ) : ℚ := (List.zipWith (fun x y => x * y) a b).sum

/-- Source: `nn.Linear(inp, out, bias = False)`: the weight matrix is stored as
`out` rows of `inp` coordinates and multiplies from the right, `y = x Wᵀ`. -/
def linearNB (W : List (List ℚ)) (x : List ℚ) : List ℚ := W.map (fun r => dot r x)

/-- Source: `nn.Linear` with bias. -/
def linearB (W : List (List ℚ)) (b x : List ℚ) : List ℚ :=
  List.zipWith (fun y c => y + c) (linearNB W x) b

/-- Source: `nn.LayerNorm(dim)` on one row: subtract the mean, divide by
`sqrt(biased variance + eps)` (`eps = 1e-5`), then apply the elementwise
affine parameters `g`, `b`. -/
def layer_norm (ops : ScalarOps) (g b x : List ℚ) : List ℚ :=
  List.zipWith (fun y c => y + c)
    (List.zipWith
      (fun t gi =>
        (t - x.sum / x.length) *
          ops.rsqrt ((x.map (fun u => (u - x.sum / x.length) ^ 2)).sum / x.length + 1 / 100000) *
          gi)
      x g) b

/-- Source: `tensor.chunk(2, dim = -1)`: first chunk of `⌈len/2⌉` entries, second
chunk the rest (equal halves whenever the length is even). -/
def pyChunk2 (l : List ℚ) : List ℚ × List ℚ :=
  (l.take ((l.length + 1) / 2), l.drop ((l.length + 1) / 2))

/-- Source: `softmax(dim = -1)` on one row, as torch computes it: subtract the row
maximum, exponentiate, normalize by the sum. -/
def softmaxRow (ops : ScalarOps) (r : List ℚ) : List ℚ :=
  (r.map (fun t => ops.exp (t - r.foldl max (r.headD 0)))).map
    (fun t => t / (r.map (fun u => ops.exp (u - r.foldl max (r.headD 0)))).sum)

/-- Attention module state (`Attention.__init__`, lines 101-121):
hyperparameters and weight tensors.  `to_q = nn.Linear(dim, heads*dim_head)`
and `to_kv = nn.Linear(dim, dim_head*2)`, both without bias;
`to_out = nn.Linear(heads*dim_head, dim)` with bias; `rel_emb` is the
`nn.Embedding(num_buckets, heads)` table of the `T5RelativePositionBias`
built with the source defaults `num_buckets = 32`, `max_distance = 128`. -/
structure Attention where
  dim : ℕ
  heads : ℕ
  dim_head : ℕ
  to_q : List (List ℚ)
  to_kv : List (List ℚ)
  to_out_w : List (List ℚ)
  to_out_b : List ℚ
  rel_emb : List (List ℚ)

/-- Source: `Attention.__init__`: records the hyperparameters and the (randomly
initialized, here given) weight tensors. -/
def Attention.init (dim heads dim_head : ℕ) (to_q to_kv to_out_w : List (List ℚ))
    (to_out_b : List ℚ) (rel_emb : List (List ℚ)) : Attention :=
  ⟨dim, heads, dim_head, to_q, to_kv, to_out_w, to_out_b, rel_emb⟩

/-- Source: `q = rearrange(self.to_q(x), 'b n (h d) -> b h n d', h = h)` followed by
`q = q * self.scale`, on one batch element (a list of `n` rows of `dim`
coordinates): head `h` takes the `dim_head` consecutive coordinates starting
at `h * dim_head`. -/
def Attention.queries (A : Attention) (scale : ℚ) (xb : List (List ℚ)) :
    List (List (List ℚ)) :=
  (List.range A.heads).map (fun h =>
    xb.map (fun row =>
      (((linearNB A.to_q row).drop (h * A.dim_head)).take A.dim_head).map (fun t => t * scale)))

/-- Source: `k, v = self.to_kv(x).chunk(2, dim = -1)`: the key half.  There is no
head index: the single projection is shared by every query head. -/
def Attention.keys (A : Attention) (xb : List (List ℚ)) : List (List ℚ) :=
  xb.map (fun row => (pyChunk2 (linearNB A.to_kv row)).1)

/-- The value half of `self.to_kv(x).chunk(2, dim = -1)`. -/
def Attention.values (A : Attention) (xb : List (List ℚ)) : List (List ℚ) :=
  xb.map (fun row => (pyChunk2 (linearNB A.to_kv row)).2)

/-- Source: `sim = einsum('b h i d, b j d -> b h i j', q, k)`. -/
def Attention.simRaw (A : Attention) (scale : ℚ) (xb : List (List ℚ)) :
    List (List (List ℚ)) :=
  (A.queries scale xb).map (fun qh => qh.map (fun qi => (A.keys xb).map (fun kj => dot qi kj)))

/-- Source: `sim = self.rel_pos_bias(sim)` (`T5RelativePositionBias.forward`, lines
89-97): `qk_dots + bias * self.scale` where `bias h i j` is entry `h` of the
embedding-table row at bucket `(j - i)`, with `num_buckets = 32`,
`max_distance = 128`. -/
def Attention.simBiased (A : Attention) (scale relScale : ℚ) (xb : List (List ℚ)) :
    List (List (List ℚ)) :=
  List.zipWith
    (fun h ph =>
      List.zipWith
        (fun i row =>
          List.zipWith
            (fun j v =>
              v + (A.rel_emb.getD
                    (relative_position_bucket 32 128 (((j : ℕ) : ℤ) - ((i : ℕ) : ℤ))) []).getD h 0
                    * relScale)
            (List.range row.length) row)
        (List.range ph.length) ph)
    (List.range A.heads) (A.simRaw scale xb)

/-- Source: `causal_mask = torch.ones((i, j), ...).triu(j - i + 1)` and
`sim.masked_fill(causal_mask, -torch.finfo(sim.dtype).max)`: here the score
tensor is square (`i = j = n`), so the `triu` diagonal is `1` and entry
`(i, j)` is replaced by the sentinel exactly when `j > i`. -/
def Attention.simMasked (A : Attention) (scale relScale : ℚ) (xb : List (List ℚ)) :
    List (List (List ℚ)) :=
  (A.simBiased scale relScale xb).map (fun ph =>
    List.zipWith
      (fun i row =>
        List.zipWith (fun j v => if i < j then negMax else v) (List.range row.length) row)
      (List.range ph.length) ph)

/-- Source: `attn = sim.softmax(dim = -1)` (dropout is the identity, p = 0). -/
def Attention.attnMat (ops : ScalarOps) (scale relScale : ℚ) (A : Attention)
    (xb : List (List ℚ)) : List (List (List ℚ)) :=
  (A.simMasked scale relScale xb).map (fun ph => ph.map (softmaxRow ops))

/-- Source: `out = einsum('b h i j, b j d -> b h i d', attn, v)`: the aggregated
values per head; the value tensor `v` is the shared one, with no head
index. -/
def Attention.outHeads (ops : ScalarOps) (scale relScale : ℚ) (A : Attention)
    (xb : List (List ℚ)) : List (List (List ℚ)) :=
  (A.attnMat ops scale relScale xb).map (fun ph =>
    ph.map (fun arow =>
      (List.range A.dim_head).map (fun d =>
        (List.zipWith (fun a vr => a * vr.getD d 0) arow (A.values xb)).sum)))

/-- Source: `out = rearrange(out, 'b h n d -> b n (h d)')`: per position, the
concatenation of the per-head outputs. -/
def Attention.mergedHeads (ops : ScalarOps) (scale relScale : ℚ) (A : Attention)
    (xb : List (List ℚ)) : List (List ℚ) :=
  (List.range ((A.outHeads ops scale relScale xb).headD []).length).map (fun i =>
    ((A.outHeads ops scale relScale xb).map (fun ph => ph.getD i [])).flatten)

/-- Source: `Attention.forward` (lines 123-148) on one batch element: softmax the
masked scores, aggregate the shared values, concatenate the heads, and
apply `self.to_out`. -/
def Attention.forwardOne (ops : ScalarOps) (scale relScale : ℚ) (A : Attention)
    (xb : List (List ℚ)) : List (List ℚ) :=
  (A.mergedHeads ops scale relScale xb).map (fun row => linearB A.to_out_w A.to_out_b row)

/-- Source: `Attention.forward` over a batch: every `einsum`/module is
batch-parallel. -/
def Attention.forward (ops : ScalarOps) (scale relScale : ℚ) (A : Attention)
    (x : List (List (List ℚ))) : List (List (List ℚ)) :=
  x.map (A.forwardOne ops scale relScale)

/-- Source: `FeedForward` module (lines 43-55): `nn.Linear(dim, inner_dim * 2)` with
`inner_dim = dim * mult` (default `mult = 4`), GEGLU, dropout (identity at
p = 0), `nn.Linear(inner_dim, dim)`. -/
structure FeedForward where
  dim : ℕ
  w1 : List (List ℚ)
  b1 : List ℚ
  w2 : List (List ℚ)
  b2 : List ℚ

/-- The `FeedForward.net` on one row, with `GEGLU.forward` (lines 36-39):
`x, gates = x.chunk(2, dim = -1); x * F.gelu(gates)`. -/
def FeedForward.forwardRow (ops : ScalarOps) (f : FeedForward) (x : List ℚ) : List ℚ :=
  linearB f.w2 f.b2
    (List.zipWith (fun a g => a * ops.gelu g)
      (pyChunk2 (linearB f.w1 f.b1 x)).1 (pyChunk2 (linearB f.w1 f.b1 x)).2)

/-- One `Residual(PreNorm(dim, ...))`-wrapped pair of the stack. -/
structure TLayer where
  ln1g : List ℚ
  ln1b : List ℚ
  attn : Attention
  ln2g : List ℚ
  ln2b : List ℚ
  ff : FeedForward

/-- Source: `PreNorm.forward`'s normalization, lifted to a batch of sequences. -/
def normT (ops : ScalarOps) (g b : List ℚ) (x : List (List (List ℚ))) :
    List (List (List ℚ)) :=
  x.map (fun xb => xb.map (layer_norm ops g b))

def addM (a b : List (List ℚ)) : List (List ℚ) :=
  List.zipWith (List.zipWith (fun s t => s + t)) a b

/-- Elementwise tensor addition — the `+` of `Residual.forward` (line 21),
which computes `self.fn(x, **kwargs) + x`. -/
def addT (a b : List (List (List ℚ))) : List (List (List ℚ)) :=
  List.zipWith addM a b

/-- Source: `x = attn(x)` of `Transformer.forward`, where `attn` is
`Residual(PreNorm(dim, Attention(...)))`: `fn(norm(x)) + x`. -/
def TLayer.attnStep (ops : ScalarOps) (scale relScale : ℚ) (l : TLayer)
    (x : List (List (List ℚ))) : List (List (List ℚ)) :=
  addT (Attention.forward ops scale relScale l.attn (normT ops l.ln1g l.ln1b x)) x

/-- Source: `x = ff(x)` of `Transformer.forward`, where `ff` is
`Residual(PreNorm(dim, FeedForward(...)))`. -/
def TLayer.ffStep (ops : ScalarOps) (l : TLayer) (x : List (List (List ℚ))) :
    List (List (List ℚ)) :=
  addT ((normT ops l.ln2g l.ln2b x).map (fun xb => xb.map (FeedForward.forwardRow ops l.ff))) x

structure Transformer where
  layers : List TLayer

/-- Source: `Transformer.forward` (lines 161-165): the sequential loop
`for attn, ff in self.layers: x = attn(x); x = ff(x)`. -/
def Transformer.forward (ops : ScalarOps) (scale relScale : ℚ) (tm : Transformer)
    (x : List (List (List ℚ))) : List (List (List ℚ)) :=
  tm.layers.foldl (fun y l => l.ffStep ops (l.attnStep ops scale relScale y)) x

/-- The per-layer weight tensors consumed by `Transformer.__init__` (the
embedding abstracts torch's random initialization by taking them as
inputs). -/
structure LayerWeights where
  ln1g : List ℚ
  ln1b : List ℚ
  to_q : List (List ℚ)
  to_kv : List (List ℚ)
  to_out_w : List (List ℚ)
  to_out_b : List ℚ
  rel_emb : List (List ℚ)
  ln2g : List ℚ
  ln2b : List ℚ
  w1 : List (List ℚ)
  b1 : List ℚ
  w2 : List (List ℚ)
  b2 : List ℚ

/-- Source: `Transformer.__init__(self, dim, depth, heads, dim_head, dropout = 0.)`
(lines 152-160): `depth` layers, each pairing
`Residual(PreNorm(dim, Attention(dim = dim, heads = heads, dim_head = dim_head, dropout = dropout)))`
with `Residual(PreNorm(dim, FeedForward(dim = dim, dropout = dropout)))`
(keyword arguments — no transposition happens here). -/
def Transformer.init (dim depth heads dim_head : ℕ) (w : ℕ → LayerWeights) : Transformer :=
  ⟨(List.range depth).map (fun i =>
    { ln1g := (w i).ln1g, ln1b := (w i).ln1b
      attn := Attention.init dim heads dim_head (w i).to_q (w i).to_kv (w i).to_out_w
        (w i).to_out_b (w i).rel_emb
      ln2g := (w i).ln2g, ln2b := (w i).ln2b
      ff := ⟨dim, (w i).w1, (w i).b1, (w i).w2, (w i).b2⟩ })⟩

structure LaMDA where
  num_tokens : ℕ
  token_emb : List (List ℚ)
  transformer : Transformer
  norm_g : List ℚ
  norm_b : List ℚ
  to_logits_w : List (List ℚ)
  to_logits_b : List ℚ

/-- Source: `LaMDA.__init__(self, *, num_tokens, dim, depth, dim_head, heads)`
(lines 169-179).  The source builds the stack with the positional call
`Transformer(dim, depth, dim_head, heads)` although `Transformer`'s
signature is `(dim, depth, heads, dim_head)`; the embedding reproduces that
call verbatim (third argument `dim_head`, fourth `heads`). -/
def LaMDA.init (num_tokens dim depth dim_head heads : ℕ) (token_emb : List (List ℚ))
    (w : ℕ → LayerWeights) (norm_g norm_b : List ℚ) (to_logits_w : List (List ℚ))
    (to_logits_b : List ℚ) : LaMDA :=
  ⟨num_tokens, token_emb, Transformer.init dim depth dim_head heads w,
    norm_g, norm_b, to_logits_w, to_logits_b⟩

/-- Source: `LaMDA.forward` (lines 181-185): embedding lookup, transformer stack,
then `self.to_logits = nn.Sequential(nn.LayerNorm(dim), nn.Linear(dim, num_tokens))`. -/
def LaMDA.forward (ops : ScalarOps) (scale relScale : ℚ) (M : LaMDA)
    (ids : List (List ℕ)) : List (List (List ℚ)) :=
  (Transformer.forward ops scale relScale M.transformer
      (ids.map (fun row => row.map (fun i => M.token_emb.getD i [])))).map
    (fun xb => xb.map (fun r => linearB M.to_logits_w M.to_logits_b
      (layer_norm ops M.norm_g M.norm_b r)))

/-- C3: `LaMDA.__init__` passes `dim_head` and `heads` to `Transformer`
positionally transposed (`Transformer(dim, depth, dim_head, heads)` against
the signature `(dim, depth, heads, dim_head)`), so every attention layer of
the constructed model is built with `heads := dim_head` and
`dim_head := heads` — `dim_head` query heads of per-head size `heads`. -/
theorem lamda_transposes_heads_dim_head (num_tokens dim depth dim_head heads : ℕ)
    (token_emb : List (List ℚ)) (w : ℕ → LayerWeights) (norm_g norm_b : List ℚ)
    (to_logits_w : List (List ℚ)) (to_logits_b : List ℚ) :
    ((LaMDA.init num_tokens dim depth dim_head heads token_emb w norm_g norm_b
        to_logits_w to_logits_b).transformer.layers.map
      (fun l => (l.attn.heads, l.attn.dim_head))) =
      List.replicate depth (dim_head, heads) := by
  show ((List.range depth).map _).map _ = _
  rw [List.map_map]
  have h : ((fun l : TLayer => (l.attn.heads, l.attn.dim_head)) ∘ fun i : ℕ =>
      ({ ln1g := (w i).ln1g, ln1b := (w i).ln1b
         attn := Attention.init dim dim_head heads (w i).to_q (w i).to_kv (w i).to_out_w
           (w i).to_out_b (w i).rel_emb
         ln2g := (w i).ln2g, ln2b := (w i).ln2b
         ff := ⟨dim, (w i).w1, (w i).b1, (w i).w2, (w i).b2⟩ } : TLayer)) =
      fun _ : ℕ => (dim_head, heads) := rfl
  rw [h, List.map_const', List.length_range]

lemma addM_comm (a b : List (List ℚ)) : addM a b = addM b a := by
  unfold addM
  apply List.zipWith_comm_of_comm
  intro x y
  exact List.zipWith_comm_of_comm _ (fun s t => add_comm s t) x y

lemma addT_comm (a b : List (List (List ℚ))) : addT a b = addT b a :=
  List.zipWith_comm_of_comm _ addM_comm a b

/-- The layer transformation exactly as the spec words it:
`x = x + Attention(Norm(x))` then `x = x + Feedforward(Norm(x))`
(written here with the residual operand on the left, while
`Residual.forward` computes `fn(x) + x`; tensor addition commutes). -/
def specLayerStep (ops : ScalarOps) (scale relScale : ℚ) (l : TLayer)
    (x : List (List (List ℚ))) : List (List (List ℚ)) :=
  addT (addT x (Attention.forward ops scale relScale l.attn (normT ops l.ln1g l.ln1b x)))
    ((normT ops l.ln2g l.ln2b
        (addT x (Attention.forward ops scale relScale l.attn (normT ops l.ln1g l.ln1b x)))).map
      (fun xb => xb.map (FeedForward.forwardRow ops l.ff)))

lemma layer_step_eq_spec (ops : ScalarOps) (scale relScale : ℚ) (l : TLayer)
    (y : List (List (List ℚ))) :
    TLayer.ffStep ops l (TLayer.attnStep ops scale relScale l y) =
      specLayerStep ops scale relScale l y := by
  unfold TLayer.ffStep TLayer.attnStep specLayerStep
  rw [addT_comm (Attention.forward ops scale relScale l.attn (normT ops l.ln1g l.ln1b y)) y]
  generalize addT y (Attention.forward ops scale relScale l.attn (normT ops l.ln1g l.ln1b y)) = z
  exact addT_comm _ _

/-- C8: `Transformer.forward` applies exactly `depth` layers (the
constructor builds that many), in fixed sequential order, each computing
`x = x + Attention(LayerNorm(x))` followed by `x = x + FeedForward(LayerNorm(x))`
— and appending a further layer only post-composes its step onto the
result of the earlier layers, so no layer observes a later layer's
output. -/
theorem transformer_sequential_prenorm_residual :
    (∀ (ops : ScalarOps) (scale relScale : ℚ) (tm : Transformer)
        (x : List (List (List ℚ))),
      Transformer.forward ops scale relScale tm x =
        tm.layers.foldl (fun y l => specLayerStep ops scale relScale l y) x) ∧
    (∀ (dim depth heads dim_head : ℕ) (w : ℕ → LayerWeights),
      (Transformer.init dim depth heads dim_head w).layers.length = depth) ∧
    (∀ (ops : ScalarOps) (scale relScale : ℚ) (tm : Transformer) (l : TLayer)
        (x : List (List (List ℚ))),
      Transformer.forward ops scale relScale ⟨tm.layers ++ [l]⟩ x =
        specLayerStep ops scale relScale l (Transformer.forward ops scale relScale tm x)) := by
  have hfun : ∀ (ops : ScalarOps) (scale relScale : ℚ),
      (fun (y : List (List (List ℚ))) (l : TLayer) =>
        TLayer.ffStep ops l (TLayer.attnStep ops scale relScale l y)) =
      fun y l => specLayerStep ops scale relScale l y := by
    intro ops scale relScale
    funext y l
    exact layer_step_eq_spec ops scale relScale l y
  refine ⟨?_, ?_, ?_⟩
  · intro ops scale relScale tm x
    unfold Transformer.forward
    rw [hfun]
  · intro dim depth heads dim_head w
    simp [Transformer.init]
  · intro ops scale relScale tm l x
    unfold Transformer.forward
    rw [hfun]
    rw [List.foldl_append]
    rfl

lemma length_linearNB (W : List (List ℚ)) (x : List ℚ) :
    (linearNB W x).length = W.length := by
  simp [linearNB]

lemma linearNB_take (W : List (List ℚ)) (x : List ℚ) (k : ℕ) :
    (linearNB W x).take k = linearNB (W.take k) x := by
  simp [linearNB, List.map_take]

lemma linearNB_drop (W : List (List ℚ)) (x : List ℚ) (k : ℕ) :
    (linearNB W x).drop k = linearNB (W.drop k) x := by
  simp [linearNB, List.map_drop]

lemma dot_smul_left (q k : List ℚ) (s : ℚ) :
    dot (q.map (fun t => t * s)) k = s * dot q k := by
  unfold dot
  induction q generalizing k with
  | nil => simp
  | cons a q ih =>
    cases k with
    | nil => simp
    | cons b k =>
      simp only [List.map_cons, List.zipWith_cons_cons, List.sum_cons, ih]
      ring

lemma chunk1_linearNB (A : Attention) (hkv : A.to_kv.length = 2 * A.dim_head) (row : List ℚ) :
    (pyChunk2 (linearNB A.to_kv row)).1 = linearNB (A.to_kv.take A.dim_head) row := by
  unfold pyChunk2
  show (linearNB A.to_kv row).take _ = _
  rw [length_linearNB, hkv, show (2 * A.dim_head + 1) / 2 = A.dim_head by omega, linearNB_take]

lemma chunk2_linearNB (A : Attention) (hkv : A.to_kv.length = 2 * A.dim_head) (row : List ℚ) :
    (pyChunk2 (linearNB A.to_kv row)).2 = linearNB (A.to_kv.drop A.dim_head) row := by
  unfold pyChunk2
  show (linearNB A.to_kv row).drop _ = _
  rw [length_linearNB, hkv, show (2 * A.dim_head + 1) / 2 = A.dim_head by omega, linearNB_drop]

/-- The key half of the shared projection, as a linear map: under the
constructed shape `to_kv.length = 2 * dim_head`, `chunk(2)` splits at
`dim_head`. -/
lemma keys_eq (A : Attention) (hkv : A.to_kv.length = 2 * A.dim_head) (xb : List (List ℚ)) :
    A.keys xb = xb.map (fun r => linearNB (A.to_kv.take A.dim_head) r) := by
  unfold Attention.keys
  exact congrArg (fun f => List.map f xb) (funext fun row => chunk1_linearNB A hkv row)

lemma values_eq (A : Attention) (hkv : A.to_kv.length = 2 * A.dim_head) (xb : List (List ℚ)) :
    A.values xb = xb.map (fun r => linearNB (A.to_kv.drop A.dim_head) r) := by
  unfold Attention.values
  exact congrArg (fun f => List.map f xb) (funext fun row => chunk2_linearNB A hkv row)

/-- C9: in every attention layer the queries come from `heads` independent
`dim_head`-sized blocks of the single `dim → heads * dim_head` projection
`to_q` (head `h` uses rows `h * dim_head, ..., h * dim_head + dim_head - 1`),
while keys and values each come from one shared `dim_head`-sized half of the
single `dim → 2 * dim_head` projection `to_kv`, split in two — the same
key/value vectors are used by every query head (the score formula's key
factor does not depend on `h`). -/
theorem attention_multiquery_projections (A : Attention) (scale : ℚ)
    (hq : A.to_q.length = A.heads * A.dim_head)
    (hkv : A.to_kv.length = 2 * A.dim_head) (xb : List (List ℚ)) :
    (A.keys xb = xb.map (fun r => linearNB (A.to_kv.take A.dim_head) r) ∧
      A.values xb = xb.map (fun r => linearNB (A.to_kv.drop A.dim_head) r) ∧
      (∀ r ∈ A.keys xb, r.length = A.dim_head) ∧
      (∀ r ∈ A.values xb, r.length = A.dim_head) ∧
      (∀ h, h < A.heads → ((A.to_q.drop (h * A.dim_head)).take A.dim_head).length = A.dim_head)) ∧
    A.simRaw scale xb =
      (List.range A.heads).map (fun h => xb.map (fun xi => xb.map (fun xj =>
        scale * dot (linearNB ((A.to_q.drop (h * A.dim_head)).take A.dim_head) xi)
          (linearNB (A.to_kv.take A.dim_head) xj)))) := by
  have hhead : ∀ h, h < A.heads → A.dim_head ≤ A.to_q.length - h * A.dim_head := by
    intro h hh
    have h2 : (h + 1) * A.dim_head ≤ A.heads * A.dim_head :=
      Nat.mul_le_mul_right _ (by omega)
    rw [Nat.succ_mul] at h2
    omega
  refine ⟨⟨keys_eq A hkv xb, values_eq A hkv xb, ?_, ?_, ?_⟩, ?_⟩
  · intro r hr
    rw [keys_eq A hkv xb] at hr
    obtain ⟨row, _, rfl⟩ := List.mem_map.mp hr
    rw [length_linearNB, List.length_take, hkv]
    omega
  · intro r hr
    rw [values_eq A hkv xb] at hr
    obtain ⟨row, _, rfl⟩ := List.mem_map.mp hr
    rw [length_linearNB, List.length_drop, hkv]
    omega
  · intro h hh
    rw [List.length_take, List.length_drop]
    have := hhead h hh
    omega
  · unfold Attention.simRaw Attention.queries
    rw [keys_eq A hkv xb, List.map_map]
    congr 1
    funext h
    show (xb.map _).map _ = _
    rw [List.map_map]
    congr 1
    funext xi
    show (xb.map _).map _ = _
    rw [List.map_map]
    congr 1
    funext xj
    show dot ((((linearNB A.to_q xi).drop (h * A.dim_head)).take A.dim_head).map
        (fun t => t * scale)) (linearNB (A.to_kv.take A.dim_head) xj) = _
    rw [dot_smul_left, linearNB_drop, linearNB_take]

/-- Witness for `attention_multiquery_projections` on a concrete layer with
`dim = 1`, `heads = 2`, `dim_head = 1`. -/
theorem attention_multiquery_projections_witness :
    (Attention.init 1 2 1 [[1], [2]] [[3], [4]] [[5, 6]] [7] [[0, 0]]).keys
        ([[1]] : List (List ℚ)) =
      ([[1]] : List (List ℚ)).map (fun r =>
        linearNB ((Attention.init 1 2 1 [[1], [2]] [[3], [4]] [[5, 6]] [7] [[0, 0]]).to_kv.take
          (Attention.init 1 2 1 [[1], [2]] [[3], [4]] [[5, 6]] [7] [[0, 0]]).dim_head) r) :=
  (attention_multiquery_projections
    (Attention.init 1 2 1 [[1], [2]] [[3], [4]] [[5, 6]] [7] [[0, 0]]) 1
    (by decide) (by decide) [[1]]).1.1

/-! ### Shape propagation for the forward pass -/

/-- A 3-d tensor of `B` batch elements, each with `n` rows of `m` entries. -/
def Shape3 (x : List (List (List ℚ))) (B n m : ℕ) : Prop :=
  x.length = B ∧ ∀ xb ∈ x, xb.length = n ∧ ∀ r ∈ xb, r.length = m

lemma mem_zipWith_exists {α β γ : Type} (f : α → β → γ) :
    ∀ (l1 : List α) (l2 : List β) (c : γ), c ∈ List.zipWith f l1 l2 →
      ∃ a ∈ l1, ∃ b ∈ l2, c = f a b := by
  intro l1
  induction l1 with
  | nil => intro l2 c hc; simp at hc
  | cons a t ih =>
    intro l2 c hc
    cases l2 with
    | nil => simp at hc
    | cons b t2 =>
      rw [List.zipWith_cons_cons] at hc
      rcases List.mem_cons.mp hc with h | h
      · exact ⟨a, List.mem_cons_self _ _, b, List.mem_cons_self _ _, h⟩
      · obtain ⟨a2, ha2, b2, hb2, rfl⟩ := ih t2 c h
        exact ⟨a2, List.mem_cons_of_mem _ ha2, b2, List.mem_cons_of_mem _ hb2, rfl⟩

lemma headD_mem {α : Type} (l : List α) (d : α) (h : l ≠ []) : l.headD d ∈ l := by
  cases l with
  | nil => exact absurd rfl h
  | cons a t => exact List.mem_cons_self _ _

lemma length_linearB (W : List (List ℚ)) (b x : List ℚ) :
    (linearB W b x).length = min W.length b.length := by
  simp [linearB, linearNB]

lemma length_layer_norm (ops : ScalarOps) (g b x : List ℚ) :
    (layer_norm ops g b x).length = min (min x.length g.length) b.length := by
  simp [layer_norm]

lemma softmaxRow_length (ops : ScalarOps) (r : List ℚ) :
    (softmaxRow ops r).length = r.length := by
  simp [softmaxRow]

lemma simRaw_length (A : Attention) (scale : ℚ) (xb : List (List ℚ)) :
    (A.simRaw scale xb).length = A.heads := by
  simp [Attention.simRaw, Attention.queries]

lemma simRaw_mem_length (A : Attention) (scale : ℚ) (xb : List (List ℚ)) :
    ∀ ph ∈ A.simRaw scale xb, ph.length = xb.length := by
  intro ph hph
  simp only [Attention.simRaw, Attention.queries] at hph
  obtain ⟨qh, hqh, rfl⟩ := List.mem_map.mp hph
  obtain ⟨h, _, rfl⟩ := List.mem_map.mp hqh
  simp

lemma simBiased_length (A : Attention) (scale relScale : ℚ) (xb : List (List ℚ)) :
    (A.simBiased scale relScale xb).length = A.heads := by
  simp [Attention.simBiased, simRaw_length]

lemma simBiased_mem_length (A : Attention) (scale relScale : ℚ) (xb : List (List ℚ)) :
    ∀ ph ∈ A.simBiased scale relScale xb, ph.length = xb.length := by
  intro ph hph
  simp only [Attention.simBiased] at hph
  obtain ⟨h, _, ph0, hph0, rfl⟩ := mem_zipWith_exists _ _ _ _ hph
  simp [simRaw_mem_length A scale xb ph0 hph0]

lemma simMasked_length (A : Attention) (scale relScale : ℚ) (xb : List (List ℚ)) :
    (A.simMasked scale relScale xb).length = A.heads := by
  simp [Attention.simMasked, simBiased_length]

lemma simMasked_mem_length (A : Attention) (scale relScale : ℚ) (xb : List (List ℚ)) :
    ∀ ph ∈ A.simMasked scale relScale xb, ph.length = xb.length := by
  intro ph hph
  simp only [Attention.simMasked] at hph
  obtain ⟨ph0, hph0, rfl⟩ := List.mem_map.mp hph
  simp [simBiased_mem_length A scale relScale xb ph0 hph0]

lemma attnMat_length (ops : ScalarOps) (A : Attention) (scale relScale : ℚ)
    (xb : List (List ℚ)) :
    (A.attnMat ops scale relScale xb).length = A.heads := by
  simp [Attention.attnMat, simMasked_length]

lemma attnMat_mem_length (ops : ScalarOps) (A : Attention) (scale relScale : ℚ)
    (xb : List (List ℚ)) :
    ∀ ph ∈ A.attnMat ops scale relScale xb, ph.length = xb.length := by
  intro ph hph
  simp only [Attention.attnMat] at hph
  obtain ⟨ph0, hph0, rfl⟩ := List.mem_map.mp hph
  simp [simMasked_mem_length A scale relScale xb ph0 hph0]

lemma outHeads_length (ops : ScalarOps) (A : Attention) (scale relScale : ℚ)
    (xb : List (List ℚ)) :
    (A.outHeads ops scale relScale xb).length = A.heads := by
  simp [Attention.outHeads, attnMat_length]

lemma outHeads_mem_length (ops : ScalarOps) (A : Attention) (scale relScale : ℚ)
    (xb : List (List ℚ)) :
    ∀ ph ∈ A.outHeads ops scale relScale xb, ph.length = xb.length := by
  intro ph hph
  simp only [Attention.outHeads] at hph
  obtain ⟨ph0, hph0, rfl⟩ := List.mem_map.mp hph
  simp [attnMat_mem_length ops A scale relScale xb ph0 hph0]

lemma mergedHeads_length (ops : ScalarOps) (A : Attention) (scale relScale : ℚ)
    (xb : List (List ℚ)) (hh : 0 < A.heads) :
    (A.mergedHeads ops scale relScale xb).length = xb.length := by
  have hne : A.outHeads ops scale relScale xb ≠ [] := by
    have := outHeads_length ops A scale relScale xb
    intro hnil
    rw [hnil] at this
    simp at this
    omega
  have hmem := headD_mem (A.outHeads ops scale relScale xb) [] hne
  have hlen := outHeads_mem_length ops A scale relScale xb _ hmem
  simp only [Attention.mergedHeads, List.length_map, List.length_range]
  exact hlen

/-- The attention block maps `n` input rows to `n` output rows of
`to_out`-width entries, for any input row contents. -/
lemma forwardOne_shape (ops : ScalarOps) (A : Attention) (scale relScale : ℚ)
    (d : ℕ) (hw : A.to_out_w.length = d) (hb : A.to_out_b.length = d)
    (hh : 0 < A.heads) (xb : List (List ℚ)) :
    (A.forwardOne ops scale relScale xb).length = xb.length ∧
      ∀ r ∈ A.forwardOne ops scale relScale xb, r.length = d := by
  constructor
  · simp [Attention.forwardOne, mergedHeads_length ops A scale relScale xb hh]
  · intro r hr
    simp only [Attention.forwardOne] at hr
    obtain ⟨row, _, rfl⟩ := List.mem_map.mp hr
    rw [length_linearB, hw, hb, min_self]

lemma attention_forward_shape (ops : ScalarOps) (A : Attention) (scale relScale : ℚ)
    (d : ℕ) (hw : A.to_out_w.length = d) (hb : A.to_out_b.length = d)
    (hh : 0 < A.heads) (x : List (List (List ℚ))) (B n m : ℕ) (hx : Shape3 x B n m) :
    Shape3 (Attention.forward ops scale relScale A x) B n d := by
  constructor
  · simp [Attention.forward, hx.1]
  · intro xb' hxb'
    simp only [Attention.forward] at hxb'
    obtain ⟨xb, hxb, rfl⟩ := List.mem_map.mp hxb'
    have h1 := forwardOne_shape ops A scale relScale d hw hb hh xb
    exact ⟨h1.1.trans (hx.2 xb hxb).1, h1.2⟩

lemma normT_shape (ops : ScalarOps) (g b : List ℚ) (m : ℕ)
    (hg : g.length = m) (hb : b.length = m) (x : List (List (List ℚ))) (B n : ℕ)
    (hx : Shape3 x B n m) : Shape3 (normT ops g b x) B n m := by
  constructor
  · simp [normT, hx.1]
  · intro xb' hxb'
    simp only [normT] at hxb'
    obtain ⟨xb, hxb, rfl⟩ := List.mem_map.mp hxb'
    refine ⟨by simp [(hx.2 xb hxb).1], ?_⟩
    intro r hr
    obtain ⟨r0, hr0, rfl⟩ := List.mem_map.mp hr
    rw [length_layer_norm, (hx.2 xb hxb).2 r0 hr0, hg, hb, min_self, min_self]

lemma addT_shape (a b : List (List (List ℚ))) (B n m : ℕ)
    (ha : Shape3 a B n m) (hb : Shape3 b B n m) : Shape3 (addT a b) B n m := by
  constructor
  · simp [addT, ha.1, hb.1]
  · intro xb' hxb'
    obtain ⟨xa, hxa, xb, hxb, rfl⟩ := mem_zipWith_exists _ _ _ _ hxb'
    constructor
    · simp [addM, (ha.2 xa hxa).1, (hb.2 xb hxb).1]
    · intro r hr
      obtain ⟨ra, hra, rb, hrb, rfl⟩ := mem_zipWith_exists _ _ _ _ hr
      simp [(ha.2 xa hxa).2 ra hra, (hb.2 xb hxb).2 rb hrb]

lemma forwardRow_length (ops : ScalarOps) (f : FeedForward) (x : List ℚ) :
    (FeedForward.forwardRow ops f x).length = min f.w2.length f.b2.length := by
  simp [FeedForward.forwardRow, length_linearB]

/-- Everything `Transformer.init` guarantees about one layer's weight
shapes that the shape of the forward pass depends on. -/
@[reducible]
def WFLayer (dim : ℕ) (l : TLayer) : Prop :=
  l.ln1g.length = dim ∧ l.ln1b.length = dim ∧ l.ln2g.length = dim ∧ l.ln2b.length = dim ∧
    l.attn.to_out_w.length = dim ∧ l.attn.to_out_b.length = dim ∧ 0 < l.attn.heads ∧
    l.ff.w2.length = dim ∧ l.ff.b2.length = dim

lemma attnStep_shape (ops : ScalarOps) (scale relScale : ℚ) (l : TLayer) (dim : ℕ)
    (hl : WFLayer dim l) (x : List (List (List ℚ))) (B n : ℕ) (hx : Shape3 x B n dim) :
    Shape3 (l.attnStep ops scale relScale x) B n dim := by
  unfold TLayer.attnStep
  refine addT_shape _ _ B n dim ?_ hx
  exact attention_forward_shape ops l.attn scale relScale dim hl.2.2.2.2.1 hl.2.2.2.2.2.1
    hl.2.2.2.2.2.2.1 _ B n dim (normT_shape ops _ _ dim hl.1 hl.2.1 x B n hx)

lemma ffStep_shape (ops : ScalarOps) (l : TLayer) (dim : ℕ) (hl : WFLayer dim l)
    (x : List (List (List ℚ))) (B n : ℕ) (hx : Shape3 x B n dim) :
    Shape3 (l.ffStep ops x) B n dim := by
  unfold TLayer.ffStep
  refine addT_shape _ _ B n dim ?_ hx
  have hnorm := normT_shape ops _ _ dim hl.2.2.1 hl.2.2.2.1 x B n hx
  constructor
  · simp [hnorm.1]
  · intro xb' hxb'
    obtain ⟨xb, hxb, rfl⟩ := List.mem_map.mp hxb'
    refine ⟨by simp [(hnorm.2 xb hxb).1], ?_⟩
    intro r hr
    obtain ⟨r0, _, rfl⟩ := List.mem_map.mp hr
    rw [forwardRow_length, hl.2.2.2.2.2.2.2.1, hl.2.2.2.2.2.2.2.2, min_self]

lemma transformer_shape (ops : ScalarOps) (scale relScale : ℚ) :
    ∀ (layers : List TLayer) (x : List (List (List ℚ))) (B n dim : ℕ),
      (∀ l ∈ layers, WFLayer dim l) → Shape3 x B n dim →
      Shape3 (Transformer.forward ops scale relScale ⟨layers⟩ x) B n dim := by
  intro layers
  induction layers with
  | nil => intro x B n dim _ hx; exact hx
  | cons l t ih =>
    intro x B n dim hall hx
    have hstep : Transformer.forward ops scale relScale ⟨l :: t⟩ x =
        Transformer.forward ops scale relScale ⟨t⟩
          (l.ffStep ops (l.attnStep ops scale relScale x)) := rfl
    rw [hstep]
    refine ih _ B n dim (fun l2 hl2 => hall l2 (List.mem_cons_of_mem _ hl2)) ?_
    have hl := hall l (List.mem_cons_self _ _)
    exact ffStep_shape ops l dim hl _ B n
      (attnStep_shape ops scale relScale l dim hl x B n hx)

/-- C10: for every well-shaped model and every rectangular `(batch, length)`
input of token ids below `num_tokens`, `LaMDA.forward` returns a
`(batch, length, num_tokens)` tensor of logits — for all values of `batch`
and `length`, all weight contents, and all choices of the transcendental
scalar functions. -/
theorem lamda_forward_shape (ops : ScalarOps) (scale relScale : ℚ) (M : LaMDA)
    (dim len : ℕ)
    (hembL : M.token_emb.length = M.num_tokens)
    (hembR : ∀ r ∈ M.token_emb, r.length = dim)
    (hlayers : ∀ l ∈ M.transformer.layers, WFLayer dim l)
    (hlw : M.to_logits_w.length = M.num_tokens)
    (hlb : M.to_logits_b.length = M.num_tokens)
    (ids : List (List ℕ))
    (hrect : ∀ row ∈ ids, row.length = len)
    (hids : ∀ row ∈ ids, ∀ i ∈ row, i < M.num_tokens) :
    Shape3 (LaMDA.forward ops scale relScale M ids) ids.length len M.num_tokens := by
  have hembed : Shape3 (ids.map (fun row => row.map (fun i => M.token_emb.getD i [])))
      ids.length len dim := by
    refine ⟨by simp, ?_⟩
    intro xb hxb
    obtain ⟨row, hrow, rfl⟩ := List.mem_map.mp hxb
    refine ⟨by simp [hrect row hrow], ?_⟩
    intro r hr
    obtain ⟨i, hi, rfl⟩ := List.mem_map.mp hr
    have hlt : i < M.token_emb.length := by rw [hembL]; exact hids row hrow i hi
    rw [List.getD_eq_getElem?_getD, List.getElem?_eq_getElem hlt]
    exact hembR _ (List.getElem_mem hlt)
  have htr := transformer_shape ops scale relScale M.transformer.layers _
    ids.length len dim hlayers hembed
  unfold LaMDA.forward
  constructor
  · rw [List.length_map]
    exact htr.1
  · intro xb' hxb'
    obtain ⟨xb, hxb, rfl⟩ := List.mem_map.mp hxb'
    refine ⟨by rw [List.length_map]; exact (htr.2 xb hxb).1, ?_⟩
    intro r hr
    obtain ⟨r0, _, rfl⟩ := List.mem_map.mp hr
    rw [length_linearB, hlw, hlb, min_self]
/-- Witness for `lamda_forward_shape`: a model with `num_tokens = 2`,
`dim = 1`, `depth = 1`, one head of size one, on the batch `[[0, 1]]`. -/
theorem lamda_forward_shape_witness :
    Shape3
      (LaMDA.forward ⟨id, id, id⟩ 1 1
        (LaMDA.init 2 1 1 1 1 [[1], [0]]
          (fun _ =>
            ⟨[1], [0], [[1]], [[1], [1]], [[1]], [0], [[0]], [1], [0], [[1]], [0], [[1]], [0]⟩)
          [1] [0] [[1], [0]] [0, 0])
        [[0, 1]])
      1 2 2 :=
  lamda_forward_shape ⟨id, id, id⟩ 1 1
    (LaMDA.init 2 1 1 1 1 [[1], [0]]
      (fun _ =>
        ⟨[1], [0], [[1]], [[1], [1]], [[1]], [0], [[0]], [1], [0], [[1]], [0], [[1]], [0]⟩)
      [1] [0] [[1], [0]] [0, 0])
    1 2 (by decide) (by decide) (by decide) (by decide) (by decide)
    [[0, 1]] (by decide) (by decide)

end LaMDAPytorch
